import Mathlib

/-!
Shallow embedding of the CH-LOCATOR coronal-hole pipeline
(src/src/index.js, main variant `generateCoronalHolePNG`, with the
contour extractor `extractContours`, the line renderer `drawLine` /
`setPixelColourSafe`, and the fetch-error control flow of the worker
handlers), together with proofs of the specified properties.

Numbers are modelled over Nat / Int / ℚ; pixel buffers are flat
row-major sequences as in the source; the fallible fetch/decode stages
are modelled with Except.
-/

namespace CHLocator

/-! ### Downsampler (src/src/index.js lines 106-140)

step = Math.max(1, Math.floor(width / TARGET_SIZE));
outW = Math.floor(width / step); outH = Math.floor(height / step);
for each output cell (x,y) the four RGBA bytes are copied from the
source cell (x*step, y*step). -/

def stepOf (W0 T : Nat) : Nat := max 1 (W0 / T)

def outWOf (W0 T : Nat) : Nat := W0 / stepOf W0 T

def outHOf (W0 H0 T : Nat) : Nat := H0 / stepOf W0 T

/-- One RGBA cell of a pixel buffer (the four consecutive bytes the
source writes at dst..dst+3). -/
structure RGBA where
  r : Nat
  g : Nat
  b : Nat
  a : Nat
deriving DecidableEq, Repr

/-- The four bytes read from the full-resolution buffer `data`
(a flat RGBA byte sequence of row width `width`) at source cell
(x*step, y*step): srcIdx = (sy*width + sx)*4. -/
def sampleRGBA (data : Nat → Nat) (width step x y : Nat) : RGBA :=
  ⟨data ((y * step * width + x * step) * 4),
   data ((y * step * width + x * step) * 4 + 1),
   data ((y * step * width + x * step) * 4 + 2),
   data ((y * step * width + x * step) * 4 + 3)⟩

/-- Row-major enumeration of a grid: the y-outer / x-inner double loop
of the source, collecting f x y for each cell. -/
def rowMajor {α : Type} (w h : Nat) (f : Nat → Nat → α) : List α :=
  (List.range h).flatMap (fun y => (List.range w).map (fun x => f x y))

/-- The downsampled RGBA buffer (cell granularity: each entry is the
four bytes written for one output cell). -/
def downsampleRGBA (data : Nat → Nat) (width step outW outH : Nat) : List RGBA :=
  rowMajor outW outH (fun x y => sampleRGBA data width step x y)

/-! ### Region/Edge Detector (src/src/index.js lines 143-174)

for y in 1 .. outH-2, x in 1 .. outW-2:
  skip when outside the disk; when lum(x,y) < θ and some 4-neighbour
  has lum ≥ θ, set edgeMask[y*outW+x] = 1 and push {x*step, y*step}.
The disk test is abstracted as a boolean predicate, matching the
claims quantifying over an arbitrary in-disk predicate. -/

/-- The per-cell flag condition of the detector loop body. -/
def edgeFlag (lum : Nat → Nat → Nat) (disk : Nat → Nat → Bool)
    (θ x y : Nat) : Bool :=
  disk x y && decide (lum x y < θ) &&
    (decide (θ ≤ lum (x - 1) y) || decide (θ ≤ lum (x + 1) y) ||
     decide (θ ≤ lum x (y - 1)) || decide (θ ≤ lum x (y + 1)))

/-- The flagged cells in loop order: y from 1 to outH-2 (outer),
x from 1 to outW-2 (inner). -/
def edgeCells (lum : Nat → Nat → Nat) (disk : Nat → Nat → Bool)
    (θ outW outH : Nat) : List (Nat × Nat) :=
  (List.range' 1 (outH - 2)).flatMap (fun y =>
    ((List.range' 1 (outW - 2)).filter (fun x => edgeFlag lum disk θ x y)).map
      (fun x => (x, y)))

/-- The interior in-disk dark cells the detector's dark branch reaches
(the cells with lum < θ, before the neighbour test). -/
def darkCells (lum : Nat → Nat → Nat) (disk : Nat → Nat → Bool)
    (θ outW outH : Nat) : List (Nat × Nat) :=
  (List.range' 1 (outH - 2)).flatMap (fun y =>
    ((List.range' 1 (outW - 2)).filter
        (fun x => disk x y && decide (lum x y < θ))).map
      (fun x => (x, y)))

/-- The reported point list: each flagged cell scaled back to
original-image resolution (edgePoints.push {x*step, y*step}). -/
def edgePointsScaled (lum : Nat → Nat → Nat) (disk : Nat → Nat → Bool)
    (θ outW outH step : Nat) : List (Nat × Nat) :=
  (edgeCells lum disk θ outW outH).map (fun p => (p.1 * step, p.2 * step))

/-! ### Contour Extractor (src/src/index.js lines 212-269)

Row-major scan; on each unvisited flagged cell start a contour and
greedily follow the first unvisited flagged 8-neighbour in the fixed
priority order W, NW, N, NE, E, SE, S, SW.  The while-loop is modelled
with fuel; the top level supplies w*h fuel, which the loop can never
exhaust since every iteration visits a fresh cell of the w×h grid. -/

/-- The neighbour offset table of the source, in priority order. -/
def offs : List (Int × Int) :=
  [(-1, 0), (-1, -1), (0, -1), (1, -1), (1, 0), (1, 1), (0, 1), (-1, 1)]

/-- The in-bounds 8-neighbours of (x,y), in priority order
(nx < 0 || nx >= w || ny < 0 || ny >= h are skipped). -/
def neighborsOf (w h x y : Nat) : List (Nat × Nat) :=
  offs.filterMap (fun d =>
    let nx : Int := (x : Int) + d.1
    let ny : Int := (y : Int) + d.2
    if 0 ≤ nx ∧ nx < (w : Int) ∧ 0 ≤ ny ∧ ny < (h : Int) then
      some (nx.toNat, ny.toNat)
    else none)

/-- The chain-following while-loop: from the current cell, take the
first unvisited flagged neighbour, mark it visited, append it, and
continue from it; stop when none exists.  Returns the appended points
and the final visited list. -/
def walk (mask : Nat → Nat → Bool) (w h : Nat) :
    Nat → Nat × Nat → List (Nat × Nat) → List (Nat × Nat) × List (Nat × Nat)
  | 0, _, visited => ([], visited)
  | fuel + 1, c, visited =>
    match (neighborsOf w h c.1 c.2).find?
        (fun n => mask n.1 n.2 && !(decide (n ∈ visited))) with
    | none => ([], visited)
    | some n =>
      let r := walk mask w h fuel n (n :: visited)
      (n :: r.1, r.2)

/-- One iteration of the row-major scan: skip cells that are not
flagged or already visited; otherwise trace a contour and retain it
when its length is at least 5. -/
def chainStep (mask : Nat → Nat → Bool) (w h : Nat)
    (acc : List (List (Nat × Nat)) × List (Nat × Nat)) (c : Nat × Nat) :
    List (List (Nat × Nat)) × List (Nat × Nat) :=
  if mask c.1 c.2 && !(decide (c ∈ acc.2)) then
    let r := walk mask w h (w * h) c (c :: acc.2)
    (if 5 ≤ (c :: r.1).length then acc.1 ++ [c :: r.1] else acc.1, r.2)
  else acc

/-- extractContours: scan all cells in row-major order. -/
def extractContours (mask : Nat → Nat → Bool) (w h : Nat) :
    List (List (Nat × Nat)) :=
  ((rowMajor w h (fun x y => (x, y))).foldl (chainStep mask w h) ([], [])).1

/-- The raw flagged-point list of a mask, in row-major order (the order
in which the detector pushes points). -/
def maskPoints (mask : Nat → Nat → Bool) (w h : Nat) : List (Nat × Nat) :=
  (rowMajor w h (fun x y => (x, y))).filter (fun c => mask c.1 c.2)

/-! ### Disk Mask (src/src/index.js lines 143-145, 156-158)

centerX = outW/2, centerY = outH/2, maxRadiusSq = (outW * F)^2;
a cell is skipped when dx*dx + dy*dy > maxRadiusSq.  The JS number
arithmetic is modelled exactly over ℚ. -/

def inDisk (outW outH : Nat) (F : ℚ) (x y : Nat) : Bool :=
  decide (((x : ℚ) - (outW : ℚ) / 2) ^ 2 + ((y : ℚ) - (outH : ℚ) / 2) ^ 2 ≤
    ((outW : ℚ) * F) ^ 2)

/-! ### Renderer (src/src/index.js lines 180-186, 273-307)

drawLine is integer Bresenham; every plot goes through
setPixelColourSafe, which ignores out-of-range coordinates and
otherwise writes R,G,B,255 to the four bytes at (y*w+x)*4.
The buffer is modelled as a function from flat byte index to byte. -/

/-- The Bresenham while(true) loop, with fuel (the source loop always
terminates; dx + dy + 1 fuel suffices for the 8-adjacent segments the
pipeline draws, as proved below).  Returns the plotted points. -/
def bresLoop (dx dy sx sy : Int) :
    Nat → Int → Int → Int → Int → Int → List (Int × Int)
  | 0, _, _, _, _, _ => []
  | fuel + 1, err, x0, y0, x1, y1 =>
    (x0, y0) ::
      (if x0 = x1 ∧ y0 = y1 then []
       else
         let e2 := 2 * err
         let err' := if e2 > -dy then err - dy else err
         let x0' := if e2 > -dy then x0 + sx else x0
         let err'' := if e2 < dx then err' + dx else err'
         let y0' := if e2 < dx then y0 + sy else y0
         bresLoop dx dy sx sy fuel err'' x0' y0' x1 y1)

/-- The points plotted by drawLine from (x0,y0) to (x1,y1)
(coordinates are already integers, so Math.round is the identity). -/
def drawLinePixels (x0 y0 x1 y1 : Int) : List (Int × Int) :=
  let dx : Int := |x1 - x0|
  let dy : Int := |y1 - y0|
  let sx : Int := if x0 < x1 then 1 else -1
  let sy : Int := if y0 < y1 then 1 else -1
  bresLoop dx dy sx sy (dx + dy + 1).toNat (dx - dy) x0 y0 x1 y1

/-- setPixelColourSafe: out-of-range writes return the buffer
unchanged; otherwise the four bytes at idx = (y*w+x)*4 become
R, G, B, 255. -/
def setPixelColourSafe (buf : Nat → Nat) (w h : Nat) (x y : Int)
    (R G B : Nat) : Nat → Nat :=
  if x < 0 ∨ (w : Int) ≤ x ∨ y < 0 ∨ (h : Int) ≤ y then buf
  else fun i =>
    let idx := (y.toNat * w + x.toNat) * 4
    if i = idx then R
    else if i = idx + 1 then G
    else if i = idx + 2 then B
    else if i = idx + 3 then 255
    else buf i

/-- drawLine: plot every Bresenham point through setPixelColourSafe. -/
def drawLine (buf : Nat → Nat) (w h : Nat) (x0 y0 x1 y1 : Int)
    (R G B : Nat) : Nat → Nat :=
  (drawLinePixels x0 y0 x1 y1).foldl
    (fun b p => setPixelColourSafe b w h p.1 p.2 R G B) buf

/-- The renderer loop of generateCoronalHolePNG: for each contour,
draw a cyan segment between every pair of consecutive points. -/
def renderContours (buf : Nat → Nat) (w h : Nat)
    (cs : List (List (Nat × Nat))) : Nat → Nat :=
  cs.foldl
    (fun b ctr =>
      (ctr.zip ctr.tail).foldl
        (fun b2 pq =>
          drawLine b2 w h (pq.1.1 : Int) (pq.1.2 : Int)
            (pq.2.1 : Int) (pq.2.2 : Int) 0 255 255)
        b)
    buf

/-- All pixels touched by the renderer for a contour list. -/
def contourPixels (cs : List (List (Nat × Nat))) : List (Int × Int) :=
  cs.flatMap (fun ctr =>
    (ctr.zip ctr.tail).flatMap (fun pq =>
      drawLinePixels (pq.1.1 : Int) (pq.1.2 : Int)
        (pq.2.1 : Int) (pq.2.2 : Int)))

/-! ### Worker control flow (src/unnamed/part_000 lines 27-54,
src/src/index.js lines 93-103)

A non-ok upstream response is terminal: the worker returns an error
carrying the upstream status before the decoder runs; a decoder
failure is likewise terminal.  Modelled as a pure function of the
already-obtained response and an abstract decoder. -/

structure UpstreamResponse where
  ok : Bool
  status : Nat
  statusText : String
  bytes : List Nat

structure DecodedImage where
  width : Nat
  height : Nat
  data : Nat → Nat

inductive PipelineError where
  | upstreamFetch (status : Nat) (statusText : String)
  | decodeError (msg : String)

def runPipeline {α : Type} (resp : UpstreamResponse)
    (decode : List Nat → Except String DecodedImage)
    (process : DecodedImage → α) : Except PipelineError α :=
  if resp.ok = false then
    Except.error (PipelineError.upstreamFetch resp.status resp.statusText)
  else
    match decode resp.bytes with
    | Except.error msg => Except.error (PipelineError.decodeError msg)
    | Except.ok img => Except.ok (process img)

/-- Contours scaled back to original resolution
(contour.map p => {x: p.x*step, y: p.y*step}). -/
def contoursScaled (cs : List (List (Nat × Nat))) (step : Nat) :
    List (List (Nat × Nat)) :=
  cs.map (fun ctr => ctr.map (fun p => (p.1 * step, p.2 * step)))

/-! ### Derived notions and concrete instances used in the proofs -/

/-- 8-adjacency of two distinct grid cells (each coordinate differs by
at most one). -/
def adjacent8 (p q : Nat × Nat) : Prop :=
  p ≠ q ∧ ((p.1 : Int) - (q.1 : Int)).natAbs ≤ 1 ∧
    ((p.2 : Int) - (q.2 : Int)).natAbs ≤ 1

instance (p q : Nat × Nat) : Decidable (adjacent8 p q) := by
  unfold adjacent8; infer_instance

/-- Invariant of the row-major contour scan: every retained contour is
nonempty, duplicate-free, at least 5 long, consists of in-bounds
flagged visited cells, and is an 8-adjacent chain; distinct retained
contours share no cell. -/
def ScanInv (mask : Nat → Nat → Bool) (w h : Nat)
    (acc : List (List (Nat × Nat)) × List (Nat × Nat)) : Prop :=
  (∀ ctr ∈ acc.1, ctr ≠ [] ∧ ctr.Nodup ∧ 5 ≤ ctr.length ∧
      (∀ p ∈ ctr, mask p.1 p.2 = true ∧ p.1 < w ∧ p.2 < h ∧ p ∈ acc.2) ∧
      List.Chain' adjacent8 ctr) ∧
  acc.1.Pairwise (fun a b => ∀ p ∈ a, p ∉ b)

/-- Folding the cyan plot over a list of points (the composite of all
setPixelColourSafe writes the renderer performs). -/
def writeAll (buf : Nat → Nat) (w h : Nat) (ps : List (Int × Int)) :
    Nat → Nat :=
  ps.foldl (fun b p => setPixelColourSafe b w h p.1 p.2 0 255 255) buf

/-- A pixel holds the highlight colour: bytes 0,255,255,255 at its four
channel indices. -/
def cyanAt (buf : Nat → Nat) (w px py : Nat) : Prop :=
  ∀ c < 4, buf ((py * w + px) * 4 + c) = if c = 0 then 0 else 255

/-- Scenario A luminance grid: 50 everywhere except cell (2,2) = 150. -/
def lumA : Nat → Nat → Nat := fun x y => if x = 2 ∧ y = 2 then 150 else 50

/-- The all-true in-disk predicate (radius fraction large enough to
cover the whole grid). -/
def diskAll : Nat → Nat → Bool := fun _ _ => true

/-- Grid refuting threshold monotonicity: 0 everywhere except cell
(2,2) = 50. -/
def lumM : Nat → Nat → Nat := fun x y => if x = 2 ∧ y = 2 then 50 else 0

/-- Scenario C mask: two mutually non-adjacent 3-cell diagonal chains
in an 8×8 grid. -/
def maskC : Nat → Nat → Bool := fun x y =>
  decide ((x, y) ∈ ([(1, 1), (2, 2), (3, 3), (5, 1), (6, 2), (7, 3)] :
    List (Nat × Nat)))

/-- A horizontal run of five flagged cells (produces one retained
contour). -/
def maskRun : Nat → Nat → Bool := fun x y =>
  decide ((x, y) ∈ ([(1, 1), (2, 1), (3, 1), (4, 1), (5, 1)] :
    List (Nat × Nat)))

/-! ## Theorems -/

theorem rowMajor_length {α : Type} (w h : Nat) (f : Nat → Nat → α) :
    (rowMajor w h f).length = h * w := by
  induction h with
  | zero => simp [rowMajor]
  | succ n ih =>
      simp only [rowMajor] at ih ⊢
      rw [List.range_succ, List.flatMap_append]
      simp only [List.flatMap_cons, List.flatMap_nil, List.append_nil,
        List.length_append, List.length_map, List.length_range, ih]
      ring


theorem rowMajor_get {α : Type} (w h : Nat) (f : Nat → Nat → α)
    (x y : Nat) (hx : x < w) (hy : y < h) :
    (rowMajor w h f)[y * w + x]? = some (f x y) := by
  induction h with
  | zero => omega
  | succ n ih =>
      have hlen : (rowMajor w n f).length = n * w := rowMajor_length w n f
      rw [rowMajor, List.range_succ, List.flatMap_append]
      rw [show (List.range n).flatMap (fun y => (List.range w).map (fun x => f x y))
          = rowMajor w n f from rfl]
      rcases Nat.lt_or_ge y n with hyn | hyn
      · rw [List.getElem?_append_left]
        · exact ih hyn
        · rw [hlen]
          calc y * w + x < y * w + w := by omega
            _ = (y + 1) * w := by ring
            _ ≤ n * w := Nat.mul_le_mul_right w (by omega)
      · have hyeq : y = n := by omega
        subst hyeq
        rw [List.getElem?_append_right (by omega)]
        simp only [List.flatMap_cons, List.flatMap_nil, List.append_nil, hlen]
        have hidx : y * w + x - y * w = x := by omega
        rw [hidx, List.getElem?_map, List.getElem?_range hx]
        rfl


theorem edgeCells_mem (lum : Nat → Nat → Nat) (disk : Nat → Nat → Bool)
    (θ outW outH x y : Nat) :
    (x, y) ∈ edgeCells lum disk θ outW outH ↔
      (1 ≤ x ∧ x < outW - 1 ∧ 1 ≤ y ∧ y < outH - 1 ∧
        edgeFlag lum disk θ x y = true) := by
  simp only [edgeCells, List.mem_flatMap, List.mem_map, List.mem_filter,
    List.mem_range'_1]
  constructor
  · rintro ⟨y', ⟨hy1, hy2⟩, x', ⟨⟨hx1, hx2⟩, hflag⟩, heq⟩
    rw [Prod.mk.injEq] at heq
    obtain ⟨hxeq, hyeq⟩ := heq
    subst hxeq; subst hyeq
    exact ⟨hx1, by omega, hy1, by omega, hflag⟩
  · rintro ⟨hx1, hx2, hy1, hy2, hflag⟩
    exact ⟨y, ⟨hy1, by omega⟩, x, ⟨⟨hx1, by omega⟩, hflag⟩, rfl⟩



/-! ### Contour extractor invariants -/

theorem offs_small : ∀ d ∈ offs,
    d.1.natAbs ≤ 1 ∧ d.2.natAbs ≤ 1 ∧ ¬(d.1 = 0 ∧ d.2 = 0) := by decide

theorem neighborsOf_spec (w h x y : Nat) (q : Nat × Nat)
    (hq : q ∈ neighborsOf w h x y) :
    adjacent8 (x, y) q ∧ q.1 < w ∧ q.2 < h := by
  simp only [neighborsOf, List.mem_filterMap] at hq
  obtain ⟨d, hd, hfd⟩ := hq
  obtain ⟨hd1, hd2, hd0⟩ := offs_small d hd
  split at hfd
  · rename_i hc
    obtain ⟨hc1, hc2, hc3, hc4⟩ := hc
    have hpq := Option.some.inj hfd
    have hq1 : ((x : Int) + d.1).toNat = q.1 := congrArg Prod.fst hpq
    have hq2 : ((y : Int) + d.2).toNat = q.2 := congrArg Prod.snd hpq
    have e1 : (q.1 : Int) = (x : Int) + d.1 := by
      rw [← hq1]; exact Int.toNat_of_nonneg hc1
    have e2 : (q.2 : Int) = (y : Int) + d.2 := by
      rw [← hq2]; exact Int.toNat_of_nonneg hc3
    refine ⟨⟨?_, ?_, ?_⟩, ?_, ?_⟩
    · intro heq
      rw [Prod.mk.injEq] at heq
      obtain ⟨hex, hey⟩ := heq
      apply hd0
      constructor <;> omega
    · simp only []; omega
    · simp only []; omega
    · omega
    · omega
  · exact absurd hfd (by simp)


theorem walk_snd (mask : Nat → Nat → Bool) (w h : Nat) :
    ∀ (fuel : Nat) (c : Nat × Nat) (visited : List (Nat × Nat)),
      (walk mask w h fuel c visited).2 =
        (walk mask w h fuel c visited).1.reverse ++ visited := by
  intro fuel
  induction fuel with
  | zero => intro c visited; simp [walk]
  | succ n ih =>
      intro c visited
      simp only [walk]
      cases hf : (neighborsOf w h c.1 c.2).find?
          (fun q => mask q.1 q.2 && !(decide (q ∈ visited))) with
      | none => simp
      | some nb => simp [ih nb (nb :: visited)]

theorem walk_points (mask : Nat → Nat → Bool) (w h : Nat) :
    ∀ (fuel : Nat) (c : Nat × Nat) (visited : List (Nat × Nat)),
      (∀ p ∈ (walk mask w h fuel c visited).1,
          mask p.1 p.2 = true ∧ p.1 < w ∧ p.2 < h ∧ p ∉ visited) ∧
      (walk mask w h fuel c visited).1.Nodup ∧
      List.Chain adjacent8 c (walk mask w h fuel c visited).1 := by
  intro fuel
  induction fuel with
  | zero => intro c visited; simp [walk]
  | succ n ih =>
      intro c visited
      simp only [walk]
      cases hf : (neighborsOf w h c.1 c.2).find?
          (fun q => mask q.1 q.2 && !(decide (q ∈ visited))) with
      | none => simp
      | some nb =>
          have hmem : nb ∈ neighborsOf w h c.1 c.2 := List.mem_of_find?_eq_some hf
          have hpred := List.find?_some hf
          have hmask : mask nb.1 nb.2 = true := by
            simp only [Bool.and_eq_true, Bool.not_eq_true', decide_eq_false_iff_not] at hpred
            exact hpred.1
          have hnvis : nb ∉ visited := by
            simp only [Bool.and_eq_true, Bool.not_eq_true', decide_eq_false_iff_not] at hpred
            exact hpred.2
          have hspec := neighborsOf_spec w h c.1 c.2 nb hmem
          obtain ⟨ihpts, ihnodup, ihchain⟩ := ih nb (nb :: visited)
          simp only
          refine ⟨?_, ?_, ?_⟩
          · intro p hp
            rcases List.mem_cons.mp hp with rfl | hp'
            · exact ⟨hmask, hspec.2.1, hspec.2.2, hnvis⟩
            · obtain ⟨h1, h2, h3, h4⟩ := ihpts p hp'
              exact ⟨h1, h2, h3, fun hv => h4 (List.mem_cons_of_mem _ hv)⟩
          · refine List.nodup_cons.mpr ⟨?_, ihnodup⟩
            intro hin
            exact (ihpts nb hin).2.2.2 (List.mem_cons_self _ _)
          · refine List.chain_cons.mpr ⟨?_, ihchain⟩
            have : adjacent8 (c.1, c.2) nb := hspec.1
            simpa using this

theorem chainStep_inv (mask : Nat → Nat → Bool) (w h : Nat)
    (acc : List (List (Nat × Nat)) × List (Nat × Nat)) (c : Nat × Nat)
    (hc : c.1 < w ∧ c.2 < h) (hinv : ScanInv mask w h acc) :
    ScanInv mask w h (chainStep mask w h acc c) := by
  obtain ⟨hall, hpair⟩ := hinv
  unfold chainStep
  split
  · rename_i hguard
    simp only [Bool.and_eq_true, Bool.not_eq_true', decide_eq_false_iff_not]
      at hguard
    obtain ⟨hmaskc, hcvis⟩ := hguard
    have hsnd := walk_snd mask w h (w * h) c (c :: acc.2)
    obtain ⟨hpts, hnodup, hchain⟩ := walk_points mask w h (w * h) c (c :: acc.2)
    set r := walk mask w h (w * h) c (c :: acc.2) with hr
    have hctr_nodup : (c :: r.1).Nodup := by
      refine List.nodup_cons.mpr ⟨?_, hnodup⟩
      intro hin
      exact (hpts c hin).2.2.2 (List.mem_cons_self _ _)
    have hctr_pts : ∀ p ∈ c :: r.1,
        mask p.1 p.2 = true ∧ p.1 < w ∧ p.2 < h ∧ p ∈ r.2 := by
      intro p hp
      rcases List.mem_cons.mp hp with rfl | hp'
      · refine ⟨hmaskc, hc.1, hc.2, ?_⟩
        rw [hsnd]; exact List.mem_append_right _ (List.mem_cons_self _ _)
      · obtain ⟨h1, h2, h3, _⟩ := hpts p hp'
        refine ⟨h1, h2, h3, ?_⟩
        rw [hsnd]
        exact List.mem_append_left _ (List.mem_reverse.mpr hp')
    have hctr_new : ∀ p ∈ c :: r.1, p ∉ acc.2 := by
      intro p hp
      rcases List.mem_cons.mp hp with rfl | hp'
      · exact hcvis
      · intro hv
        exact (hpts p hp').2.2.2 (List.mem_cons_of_mem _ hv)
    have hvis_mono : ∀ p, p ∈ acc.2 → p ∈ r.2 := by
      intro p hp
      rw [hsnd]
      exact List.mem_append_right _ (List.mem_cons_of_mem _ hp)
    have hchain' : List.Chain' adjacent8 (c :: r.1) := hchain
    show ScanInv mask w h
      (if 5 ≤ (c :: r.1).length then acc.1 ++ [c :: r.1] else acc.1, r.2)
    split
    · rename_i hlen
      constructor
      · intro ctr hctr
        rcases List.mem_append.mp hctr with hold | hnew
        · obtain ⟨a1, a2, a3, a4, a5⟩ := hall ctr hold
          exact ⟨a1, a2, a3,
            fun p hp => ⟨(a4 p hp).1, (a4 p hp).2.1, (a4 p hp).2.2.1,
              hvis_mono p (a4 p hp).2.2.2⟩, a5⟩
        · rw [List.mem_singleton.mp hnew]
          exact ⟨List.cons_ne_nil _ _, hctr_nodup, hlen, hctr_pts, hchain'⟩
      · refine List.pairwise_append.mpr ⟨hpair, List.pairwise_singleton _ _, ?_⟩
        intro a ha b hb p hp hpb
        rw [List.mem_singleton.mp hb] at hpb
        exact hctr_new p hpb ((hall a ha).2.2.2.1 p hp).2.2.2
    · constructor
      · intro ctr hctr
        obtain ⟨a1, a2, a3, a4, a5⟩ := hall ctr hctr
        exact ⟨a1, a2, a3,
          fun p hp => ⟨(a4 p hp).1, (a4 p hp).2.1, (a4 p hp).2.2.1,
            hvis_mono p (a4 p hp).2.2.2⟩, a5⟩
      · exact hpair
  · exact ⟨hall, hpair⟩

theorem foldl_chainStep_inv (mask : Nat → Nat → Bool) (w h : Nat)
    (l : List (Nat × Nat)) (hl : ∀ c ∈ l, c.1 < w ∧ c.2 < h)
    (acc : List (List (Nat × Nat)) × List (Nat × Nat))
    (hinv : ScanInv mask w h acc) :
    ScanInv mask w h (l.foldl (chainStep mask w h) acc) := by
  induction l generalizing acc with
  | nil => exact hinv
  | cons a t ih =>
      exact ih (fun c hc => hl c (List.mem_cons_of_mem _ hc)) _
        (chainStep_inv mask w h acc a (hl a (List.mem_cons_self _ _)) hinv)

theorem rowMajor_coords_bounds (w h : Nat) :
    ∀ c ∈ rowMajor w h (fun x y => (x, y)), c.1 < w ∧ c.2 < h := by
  intro c hc
  simp only [rowMajor, List.mem_flatMap, List.mem_map, List.mem_range] at hc
  obtain ⟨y, hy, x, hx, rfl⟩ := hc
  exact ⟨hx, hy⟩

theorem extractContours_inv (mask : Nat → Nat → Bool) (w h : Nat) :
    ScanInv mask w h
      ((rowMajor w h (fun x y => (x, y))).foldl (chainStep mask w h)
        ([], [])) := by
  apply foldl_chainStep_inv mask w h _ (rowMajor_coords_bounds w h)
  exact ⟨by intro ctr hctr; exact absurd hctr (List.not_mem_nil _),
    List.Pairwise.nil⟩


/-- C2: for every Edge Mask, every point of every retained contour is a
flagged cell; no cell appears in two different retained contours and no
contour repeats a cell; no retained contour has fewer than 5 points. -/
theorem contour_partition (mask : Nat → Nat → Bool) (w h : Nat) :
    (∀ ctr ∈ extractContours mask w h,
        ctr.Nodup ∧ 5 ≤ ctr.length ∧ ∀ p ∈ ctr, mask p.1 p.2 = true) ∧
    (extractContours mask w h).Pairwise (fun a b => ∀ p ∈ a, p ∉ b) := by
  obtain ⟨hall, hpair⟩ := extractContours_inv mask w h
  exact ⟨fun ctr hctr => ⟨(hall ctr hctr).2.1, (hall ctr hctr).2.2.1,
    fun p hp => ((hall ctr hctr).2.2.2.1 p hp).1⟩, hpair⟩

theorem contour_partition_witness :
    ([(1, 1), (2, 1), (3, 1), (4, 1), (5, 1)] : List (Nat × Nat)).Nodup ∧
    5 ≤ ([(1, 1), (2, 1), (3, 1), (4, 1), (5, 1)] : List (Nat × Nat)).length ∧
    maskRun 3 1 = true := by
  have h := (contour_partition maskRun 8 8).1
    [(1, 1), (2, 1), (3, 1), (4, 1), (5, 1)] (by decide)
  exact ⟨h.1, h.2.1, h.2.2 (3, 1) (by decide)⟩

/-- C6: on the 8×8 mask holding two mutually non-8-adjacent 3-cell
diagonal chains, the extractor retains zero contours (both chains are
below the length-5 minimum) while the raw flagged-point list still
holds all six coordinates. -/
theorem scenario_c :
    (∀ p ∈ ([(1, 1), (2, 2), (3, 3)] : List (Nat × Nat)),
      ∀ q ∈ ([(5, 1), (6, 2), (7, 3)] : List (Nat × Nat)), ¬adjacent8 p q) ∧
    extractContours maskC 8 8 = [] ∧
    maskPoints maskC 8 8 = [(1, 1), (5, 1), (2, 2), (6, 2), (3, 3), (7, 3)] := by
  refine ⟨by decide, by decide, by decide⟩

/-! ### Detector, downsampler and pipeline claims -/

theorem flatMap_congr {α β : Type} {l : List α} {f g : α → List β}
    (hfg : ∀ a ∈ l, f a = g a) : l.flatMap f = l.flatMap g := by
  induction l with
  | nil => rfl
  | cons a t ih =>
      simp only [List.flatMap_cons, hfg a (List.mem_cons_self _ _),
        ih (fun b hb => hfg b (List.mem_cons_of_mem _ hb))]

theorem edgeCells_congr (lum : Nat → Nat → Nat) (d1 d2 : Nat → Nat → Bool)
    (θ outW outH : Nat)
    (hd : ∀ x y, 1 ≤ x → x < outW - 1 → 1 ≤ y → y < outH - 1 →
      d1 x y = d2 x y) :
    edgeCells lum d1 θ outW outH = edgeCells lum d2 θ outW outH := by
  unfold edgeCells
  apply flatMap_congr
  intro y hy
  rw [List.mem_range'_1] at hy
  congr 1
  apply List.filter_congr
  intro x hx
  rw [List.mem_range'_1] at hx
  unfold edgeFlag
  rw [hd x y hx.1 (by omega) hy.1 (by omega)]

theorem inDisk_4_4_1 (x y : Nat) (hx : x ≤ 3) (hy : y ≤ 3) :
    inDisk 4 4 1 x y = true := by
  interval_cases x <;> interval_cases y <;>
    · simp only [inDisk, decide_eq_true_eq]
      norm_num

theorem edgeCells_scenarioA :
    edgeCells lumA (inDisk 4 4 1) 100 4 4 = [(2, 1), (1, 2)] := by
  rw [edgeCells_congr lumA (inDisk 4 4 1) diskAll 100 4 4]
  · decide
  · intro x y h1 h2 h3 h4
    rw [inDisk_4_4_1 x y (by omega) (by omega)]
    rfl

/-- C1: a cell is flagged by the edge detector iff it is interior,
in-disk, dark (lum < θ), and has a 4-neighbour with lum ≥ θ; border
cells are never flagged.  On the 4×4 scenario-A grid with θ = 100 and
radius fraction 1, the flagged cells are exactly (2,1) and (1,2). -/
theorem edge_detector_characterization :
    (∀ (lum : Nat → Nat → Nat) (disk : Nat → Nat → Bool)
        (θ outW outH x y : Nat),
      (x, y) ∈ edgeCells lum disk θ outW outH ↔
        (1 ≤ x ∧ x < outW - 1 ∧ 1 ≤ y ∧ y < outH - 1 ∧ disk x y = true ∧
          lum x y < θ ∧
          (θ ≤ lum (x - 1) y ∨ θ ≤ lum (x + 1) y ∨ θ ≤ lum x (y - 1) ∨
            θ ≤ lum x (y + 1)))) ∧
    edgeCells lumA (inDisk 4 4 1) 100 4 4 = [(2, 1), (1, 2)] := by
  refine ⟨?_, edgeCells_scenarioA⟩
  intro lum disk θ outW outH x y
  rw [edgeCells_mem]
  unfold edgeFlag
  simp only [Bool.and_eq_true, Bool.or_eq_true, decide_eq_true_eq]
  tauto

/-- C3 counterexample: the flagged edge-cell count is not monotone in
the threshold: on lumM (0 everywhere except (2,2) = 50) with the
all-true disk on a 4×4 grid, θ = 50 flags 2 cells but θ = 51 flags 0. -/
theorem threshold_monotonicity_fails :
    ¬ (∀ (lum : Nat → Nat → Nat) (disk : Nat → Nat → Bool)
        (outW outH θ₁ θ₂ : Nat), θ₁ ≤ θ₂ →
        (edgeCells lum disk θ₁ outW outH).length ≤
          (edgeCells lum disk θ₂ outW outH).length) := by
  intro hmono
  have h := hmono lumM diskAll 4 4 50 51 (by omega)
  have h1 : (edgeCells lumM diskAll 50 4 4).length = 2 := by decide
  have h2 : (edgeCells lumM diskAll 51 4 4).length = 0 := by decide
  omega

/-- C3 amended: for fixed inputs, the count of interior in-disk cells
that pass the dark test (lum < θ) is monotone in θ; the edge-cell
count itself is not monotone (see the counterexample). -/
theorem dark_count_monotone (lum : Nat → Nat → Nat) (disk : Nat → Nat → Bool)
    (outW outH θ₁ θ₂ : Nat) (h : θ₁ ≤ θ₂) :
    (darkCells lum disk θ₁ outW outH).length ≤
      (darkCells lum disk θ₂ outW outH).length := by
  unfold darkCells
  induction (List.range' 1 (outH - 2)) with
  | nil => simp
  | cons a t ih =>
      simp only [List.flatMap_cons, List.length_append, List.length_map]
      have hrow : ((List.range' 1 (outW - 2)).filter
            (fun x => disk x a && decide (lum x a < θ₁))).length ≤
          ((List.range' 1 (outW - 2)).filter
            (fun x => disk x a && decide (lum x a < θ₂))).length := by
        apply List.Sublist.length_le
        apply List.monotone_filter_right
        intro x hx
        simp only [Bool.and_eq_true, decide_eq_true_eq] at hx ⊢
        exact ⟨hx.1, by omega⟩
      omega

theorem dark_count_monotone_witness :
    (50 : Nat) ≤ 51 ∧
    (darkCells lumM diskAll 50 4 4).length ≤
      (darkCells lumM diskAll 51 4 4).length :=
  ⟨by omega, dark_count_monotone lumM diskAll 4 4 50 51 (by omega)⟩

/-- C4: step = max(1, floor(W0/T)), outW = floor(W0/step),
outH = floor(H0/step); every output cell holds the four bytes of the
source pixel at (x*step, y*step); step 3 and outW 666 for W0 = 2000,
T = 512; and step = 1 whenever W0 < T. -/
theorem downsampler_correct :
    (∀ W0 T : Nat, stepOf W0 T = max 1 (W0 / T) ∧
      outWOf W0 T = W0 / stepOf W0 T) ∧
    (∀ (H0 W0 T : Nat), outHOf W0 H0 T = H0 / stepOf W0 T) ∧
    (∀ (data : Nat → Nat) (width step outW outH x y : Nat),
      x < outW → y < outH →
      (downsampleRGBA data width step outW outH)[y * outW + x]? =
        some ⟨data ((y * step * width + x * step) * 4),
              data ((y * step * width + x * step) * 4 + 1),
              data ((y * step * width + x * step) * 4 + 2),
              data ((y * step * width + x * step) * 4 + 3)⟩) ∧
    stepOf 2000 512 = 3 ∧ outWOf 2000 512 = 666 ∧
    (∀ W0 T : Nat, W0 < T → stepOf W0 T = 1) := by
  refine ⟨fun _ _ => ⟨rfl, rfl⟩, fun _ _ _ => rfl, ?_, rfl, rfl, ?_⟩
  · intro data width step outW outH x y hx hy
    exact rowMajor_get outW outH _ x y hx hy
  · intro W0 T h
    unfold stepOf
    rw [Nat.div_eq_of_lt h]
    decide

theorem downsampler_correct_witness :
    ((downsampleRGBA (fun i => i) 10 2 5 5)[2 * 5 + 1]? =
      some ⟨(2 * 2 * 10 + 1 * 2) * 4, (2 * 2 * 10 + 1 * 2) * 4 + 1,
            (2 * 2 * 10 + 1 * 2) * 4 + 2, (2 * 2 * 10 + 1 * 2) * 4 + 3⟩) ∧
    stepOf 100 512 = 1 :=
  ⟨downsampler_correct.2.2.1 (fun i => i) 10 2 5 5 1 2 (by omega) (by omega),
   downsampler_correct.2.2.2.2.2 100 512 (by omega)⟩

/-- C5: a cell flagged by the detector running with the disk predicate
of the source (centre (outW/2, outH/2), radius outW*F — scaled by outW
only) always satisfies the disk inequality, for every configuration. -/
theorem disk_containment (lum : Nat → Nat → Nat) (θ outW outH : Nat)
    (F : ℚ) (x y : Nat)
    (h : (x, y) ∈ edgeCells lum (inDisk outW outH F) θ outW outH) :
    ((x : ℚ) - (outW : ℚ) / 2) ^ 2 + ((y : ℚ) - (outH : ℚ) / 2) ^ 2 ≤
      ((outW : ℚ) * F) ^ 2 := by
  rw [edgeCells_mem] at h
  have hd : inDisk outW outH F x y = true := by
    have hf := h.2.2.2.2
    unfold edgeFlag at hf
    simp only [Bool.and_eq_true] at hf
    exact hf.1.1
  simpa only [inDisk, decide_eq_true_eq] using hd

theorem disk_containment_witness :
    (2, 1) ∈ edgeCells lumA (inDisk 4 4 1) 100 4 4 ∧
    (((2 : Nat) : ℚ) - ((4 : Nat) : ℚ) / 2) ^ 2 +
        (((1 : Nat) : ℚ) - ((4 : Nat) : ℚ) / 2) ^ 2 ≤
      (((4 : Nat) : ℚ) * 1) ^ 2 := by
  have hmem : (2, 1) ∈ edgeCells lumA (inDisk 4 4 1) 100 4 4 := by
    rw [edgeCells_scenarioA]
    exact List.mem_cons_self _ _
  exact ⟨hmem, disk_containment lumA 100 4 4 1 2 1 hmem⟩

/-- C7: a non-ok upstream response makes the pipeline return the
upstream-fetch error carrying the upstream status and status text; the
result does not depend on the decoder (the decoder is never invoked)
and no success value is produced. -/
theorem upstream_error_failfast {α : Type}
    (resp : UpstreamResponse)
    (decode : List Nat → Except String DecodedImage)
    (process : DecodedImage → α) (h : resp.ok = false) :
    runPipeline resp decode process =
      Except.error (PipelineError.upstreamFetch resp.status resp.statusText) ∧
    (∀ decode₂ : List Nat → Except String DecodedImage,
      runPipeline resp decode₂ process = runPipeline resp decode process) := by
  unfold runPipeline
  rw [h]
  exact ⟨rfl, fun _ => rfl⟩

theorem upstream_error_failfast_witness :
    runPipeline ⟨false, 503, "Service Unavailable", []⟩
        (fun _ => Except.error "decoder input") (fun _ => (0 : Nat)) =
      Except.error (PipelineError.upstreamFetch 503 "Service Unavailable") :=
  (upstream_error_failfast ⟨false, 503, "Service Unavailable", []⟩
    (fun _ => Except.error "decoder input") (fun _ => (0 : Nat)) rfl).1

/-- C9: every coordinate in the scaled flagged-point list and in every
scaled contour is an exact multiple of step, and dividing by step gives
an analysis-grid coordinate inside [0, outW) × [0, outH). -/
theorem output_scaling (lum : Nat → Nat → Nat) (disk : Nat → Nat → Bool)
    (θ : Nat) (mask : Nat → Nat → Bool) (outW outH step : Nat)
    (hstep : 1 ≤ step) :
    (∀ q ∈ edgePointsScaled lum disk θ outW outH step,
      step ∣ q.1 ∧ step ∣ q.2 ∧ q.1 / step < outW ∧ q.2 / step < outH) ∧
    (∀ ctr ∈ contoursScaled (extractContours mask outW outH) step,
      ∀ q ∈ ctr,
        step ∣ q.1 ∧ step ∣ q.2 ∧ q.1 / step < outW ∧ q.2 / step < outH) := by
  have hpos : 0 < step := hstep
  constructor
  · intro q hq
    simp only [edgePointsScaled, List.mem_map] at hq
    obtain ⟨⟨x, y⟩, hp, rfl⟩ := hq
    rw [edgeCells_mem] at hp
    refine ⟨dvd_mul_left step x, dvd_mul_left step y, ?_, ?_⟩
    · rw [Nat.mul_div_cancel x hpos]; omega
    · rw [Nat.mul_div_cancel y hpos]; omega
  · intro ctr hctr q hq
    simp only [contoursScaled, List.mem_map] at hctr
    obtain ⟨ctr0, hctr0, rfl⟩ := hctr
    simp only [List.mem_map] at hq
    obtain ⟨p, hp, rfl⟩ := hq
    have hinv := (extractContours_inv mask outW outH).1 ctr0 hctr0
    obtain ⟨_, hbx, hby, _⟩ := hinv.2.2.2.1 p hp
    refine ⟨dvd_mul_left step p.1, dvd_mul_left step p.2, ?_, ?_⟩
    · rw [Nat.mul_div_cancel p.1 hpos]; exact hbx
    · rw [Nat.mul_div_cancel p.2 hpos]; exact hby

theorem output_scaling_witness :
    (1 : Nat) ≤ 3 ∧
    ((3 : Nat) ∣ 6 ∧ (3 : Nat) ∣ 3 ∧ 6 / 3 < 8 ∧ 3 / 3 < 8) ∧
    ((3 : Nat) ∣ 3 ∧ (3 : Nat) ∣ 3 ∧ 3 / 3 < 8 ∧ 3 / 3 < 8) := by
  have h := output_scaling lumA diskAll 100 maskRun 8 8 3 (by omega)
  refine ⟨by omega, h.1 (6, 3) (by decide), ?_⟩
  exact h.2 [(3, 3), (6, 3), (9, 3), (12, 3), (15, 3)] (by decide) (3, 3)
    (by decide)

/-! ### Bresenham and contour adjacency -/

theorem drawLinePixels_adjacent_aux (x0 y0 x1 y1 : Int)
    (hne : ¬(x0 = x1 ∧ y0 = y1)) (hdx : (x1 - x0).natAbs ≤ 1)
    (hdy : (y1 - y0).natAbs ≤ 1) :
    drawLinePixels x0 y0 x1 y1 = [(x0, y0), (x1, y1)] := by
  have hx : x1 = x0 - 1 ∨ x1 = x0 ∨ x1 = x0 + 1 := by omega
  have hy : y1 = y0 - 1 ∨ y1 = y0 ∨ y1 = y0 + 1 := by omega
  rcases hx with h1 | h1 | h1 <;> rcases hy with h2 | h2 | h2 <;>
    subst h1 <;> subst h2 <;>
    first
      | (refine absurd ⟨?_, ?_⟩ hne <;> rfl)
      | (simp only [drawLinePixels]
         norm_num
         simp only [bresLoop]
         norm_num [bresLoop]
         try split_ifs <;>
           first
             | rfl
             | (exfalso; omega))

/-- C10: consecutive points of every retained contour are distinct and
8-adjacent, and the Bresenham segment drawn between two such points
plots exactly those two pixels. -/
theorem contour_adjacency_bresenham (mask : Nat → Nat → Bool) (w h : Nat) :
    (∀ ctr ∈ extractContours mask w h, List.Chain' adjacent8 ctr) ∧
    (∀ p q : Nat × Nat, adjacent8 p q →
      drawLinePixels (p.1 : Int) (p.2 : Int) (q.1 : Int) (q.2 : Int) =
        [((p.1 : Int), (p.2 : Int)), ((q.1 : Int), (q.2 : Int))]) := by
  constructor
  · intro ctr hctr
    exact ((extractContours_inv mask w h).1 ctr hctr).2.2.2.2
  · intro p q hpq
    obtain ⟨hne, h1, h2⟩ := hpq
    apply drawLinePixels_adjacent_aux
    · intro hc
      apply hne
      have hc1 : p.1 = q.1 := by exact_mod_cast hc.1
      have hc2 : p.2 = q.2 := by exact_mod_cast hc.2
      exact Prod.ext hc1 hc2
    · omega
    · omega

theorem contour_adjacency_bresenham_witness :
    List.Chain' adjacent8 [(1, 1), (2, 1), (3, 1), (4, 1), (5, 1)] ∧
    drawLinePixels 1 1 2 1 = [(1, 1), (2, 1)] := by
  have h := contour_adjacency_bresenham maskRun 8 8
  refine ⟨h.1 [(1, 1), (2, 1), (3, 1), (4, 1), (5, 1)] (by decide), ?_⟩
  have h2 := h.2 (1, 1) (2, 1) (by decide)
  simpa using h2

/-! ### Renderer frame effect -/

theorem cell_index_inj {w a b c d : Nat} (hb : b < w) (hd : d < w)
    (h : a * w + b = c * w + d) : a = c ∧ b = d := by
  have hac : a = c := by
    rcases Nat.lt_trichotomy a c with hlt | heq | hgt
    · exfalso
      have : a * w + b < c * w + d := by
        calc a * w + b < a * w + w := by omega
          _ = (a + 1) * w := by ring
          _ ≤ c * w := Nat.mul_le_mul_right w (by omega)
          _ ≤ c * w + d := by omega
      omega
    · exact heq
    · exfalso
      have : c * w + d < a * w + b := by
        calc c * w + d < c * w + w := by omega
          _ = (c + 1) * w := by ring
          _ ≤ a * w := Nat.mul_le_mul_right w (by omega)
          _ ≤ a * w + b := by omega
      omega
  subst hac
  omega

theorem setPixel_untouched (buf : Nat → Nat) (w h : Nat) (x y : Int)
    (R G B : Nat) (px py c : Nat) (hpx : px < w) (hpy : py < h) (hc : c < 4)
    (hne : ¬(x = (px : Int) ∧ y = (py : Int))) :
    setPixelColourSafe buf w h x y R G B ((py * w + px) * 4 + c) =
      buf ((py * w + px) * 4 + c) := by
  by_cases hoob : x < 0 ∨ (w : Int) ≤ x ∨ y < 0 ∨ (h : Int) ≤ y
  · rw [setPixelColourSafe, if_pos hoob]
  · rw [setPixelColourSafe, if_neg hoob]
    push_neg at hoob
    obtain ⟨h1, h2, h3, h4⟩ := hoob
    have hxw : x.toNat < w := by omega
    have hyh : y.toNat < h := by omega
    have hcell : y.toNat * w + x.toNat ≠ py * w + px := by
      intro hEq
      obtain ⟨hyy, hxx⟩ := cell_index_inj hxw hpx hEq
      exact hne ⟨by omega, by omega⟩
    simp only []
    rw [if_neg (by omega), if_neg (by omega), if_neg (by omega),
      if_neg (by omega)]

theorem setPixel_cyan_self (buf : Nat → Nat) (w h px py : Nat)
    (hpx : px < w) (hpy : py < h) :
    cyanAt (setPixelColourSafe buf w h (px : Int) (py : Int) 0 255 255)
      w px py := by
  intro c hc
  rw [setPixelColourSafe, if_neg (by omega)]
  simp only [Int.toNat_natCast]
  interval_cases c
  · rw [if_pos (by omega)]
    norm_num
  · rw [if_neg (by omega), if_pos (by omega)]
    norm_num
  · rw [if_neg (by omega), if_neg (by omega), if_pos (by omega)]
    norm_num
  · rw [if_neg (by omega), if_neg (by omega), if_neg (by omega),
      if_pos (by omega)]
    norm_num

theorem setPixel_preserves_cyan (buf : Nat → Nat) (w h : Nat) (x y : Int)
    (px py : Nat) (hpx : px < w) (hpy : py < h)
    (hcy : cyanAt buf w px py) :
    cyanAt (setPixelColourSafe buf w h x y 0 255 255) w px py := by
  by_cases hxy : x = (px : Int) ∧ y = (py : Int)
  · rw [hxy.1, hxy.2]
    exact setPixel_cyan_self buf w h px py hpx hpy
  · intro c hc
    rw [setPixel_untouched buf w h x y 0 255 255 px py c hpx hpy hc hxy]
    exact hcy c hc

theorem writeAll_cons (buf : Nat → Nat) (w h : Nat) (a : Int × Int)
    (t : List (Int × Int)) :
    writeAll buf w h (a :: t) =
      writeAll (setPixelColourSafe buf w h a.1 a.2 0 255 255) w h t := rfl

theorem writeAll_append (buf : Nat → Nat) (w h : Nat)
    (l1 l2 : List (Int × Int)) :
    writeAll buf w h (l1 ++ l2) = writeAll (writeAll buf w h l1) w h l2 := by
  unfold writeAll
  rw [List.foldl_append]

theorem writeAll_untouched (w h : Nat) (ps : List (Int × Int)) :
    ∀ (buf : Nat → Nat) (px py c : Nat), px < w → py < h → c < 4 →
    (∀ q ∈ ps, ¬(q.1 = (px : Int) ∧ q.2 = (py : Int))) →
    writeAll buf w h ps ((py * w + px) * 4 + c) =
      buf ((py * w + px) * 4 + c) := by
  induction ps with
  | nil => intro buf px py c _ _ _ _; rfl
  | cons a t ih =>
      intro buf px py c hpx hpy hc hnp
      rw [writeAll_cons,
        ih _ px py c hpx hpy hc (fun q hq => hnp q (List.mem_cons_of_mem _ hq))]
      exact setPixel_untouched buf w h a.1 a.2 0 255 255 px py c hpx hpy hc
        (hnp a (List.mem_cons_self _ _))

theorem writeAll_preserves_cyan (w h : Nat) (ps : List (Int × Int)) :
    ∀ (buf : Nat → Nat) (px py : Nat), px < w → py < h →
    cyanAt buf w px py → cyanAt (writeAll buf w h ps) w px py := by
  induction ps with
  | nil => intro buf _ _ _ _ hcy; exact hcy
  | cons a t ih =>
      intro buf px py hpx hpy hcy
      rw [writeAll_cons]
      exact ih _ px py hpx hpy
        (setPixel_preserves_cyan buf w h a.1 a.2 px py hpx hpy hcy)

theorem writeAll_cyan (w h : Nat) (ps : List (Int × Int)) :
    ∀ (buf : Nat → Nat) (px py : Nat), px < w → py < h →
    ((px : Int), (py : Int)) ∈ ps →
    cyanAt (writeAll buf w h ps) w px py := by
  induction ps with
  | nil => intro buf px py _ _ hmem; exact absurd hmem (List.not_mem_nil _)
  | cons a t ih =>
      intro buf px py hpx hpy hmem
      rcases List.mem_cons.mp hmem with heq | hmem'
      · rw [writeAll_cons, ← heq]
        exact writeAll_preserves_cyan w h t _ px py hpx hpy
          (setPixel_cyan_self buf w h px py hpx hpy)
      · rw [writeAll_cons]
        exact ih _ px py hpx hpy hmem'

theorem drawLine_eq_writeAll (buf : Nat → Nat) (w h : Nat)
    (x0 y0 x1 y1 : Int) :
    drawLine buf w h x0 y0 x1 y1 0 255 255 =
      writeAll buf w h (drawLinePixels x0 y0 x1 y1) := rfl

theorem segs_foldl_eq_writeAll (w h : Nat)
    (prs : List ((Nat × Nat) × (Nat × Nat))) :
    ∀ buf : Nat → Nat,
    prs.foldl (fun b pq => drawLine b w h (pq.1.1 : Int) (pq.1.2 : Int)
        (pq.2.1 : Int) (pq.2.2 : Int) 0 255 255) buf =
      writeAll buf w h (prs.flatMap (fun pq =>
        drawLinePixels (pq.1.1 : Int) (pq.1.2 : Int)
          (pq.2.1 : Int) (pq.2.2 : Int))) := by
  induction prs with
  | nil => intro buf; rfl
  | cons a t ih =>
      intro buf
      simp only [List.foldl_cons, List.flatMap_cons]
      rw [writeAll_append, ih, drawLine_eq_writeAll]

theorem renderContours_eq_writeAll (w h : Nat)
    (cs : List (List (Nat × Nat))) :
    ∀ buf : Nat → Nat,
    renderContours buf w h cs = writeAll buf w h (contourPixels cs) := by
  induction cs with
  | nil => intro buf; rfl
  | cons ctr t ih =>
      intro buf
      have h1 : renderContours buf w h (ctr :: t) =
          renderContours ((ctr.zip ctr.tail).foldl
            (fun b2 pq => drawLine b2 w h (pq.1.1 : Int) (pq.1.2 : Int)
              (pq.2.1 : Int) (pq.2.2 : Int) 0 255 255) buf) w h t := rfl
      have h2 : contourPixels (ctr :: t) =
          (ctr.zip ctr.tail).flatMap (fun pq =>
            drawLinePixels (pq.1.1 : Int) (pq.1.2 : Int)
              (pq.2.1 : Int) (pq.2.2 : Int)) ++ contourPixels t := by
        unfold contourPixels
        rw [List.flatMap_cons]
      rw [h1, ih, segs_foldl_eq_writeAll, h2, writeAll_append]

/-- C8: the line renderer leaves all four channels of every in-bounds
pixel on no contour segment unchanged, paints every pixel on a contour
segment with the highlight colour 0/255/255 (alpha 255), and treats
out-of-range writes as silent no-ops. -/
theorem renderer_effect (buf : Nat → Nat) (w h : Nat)
    (cs : List (List (Nat × Nat))) (px py : Nat)
    (hpx : px < w) (hpy : py < h) :
    ((∀ q ∈ contourPixels cs, ¬(q.1 = (px : Int) ∧ q.2 = (py : Int))) →
      ∀ c < 4, renderContours buf w h cs ((py * w + px) * 4 + c) =
        buf ((py * w + px) * 4 + c)) ∧
    (((px : Int), (py : Int)) ∈ contourPixels cs →
      cyanAt (renderContours buf w h cs) w px py) ∧
    (∀ (x y : Int) (R G B : Nat),
      (x < 0 ∨ (w : Int) ≤ x ∨ y < 0 ∨ (h : Int) ≤ y) →
      setPixelColourSafe buf w h x y R G B = buf) := by
  refine ⟨?_, ?_, ?_⟩
  · intro hnp c hc
    rw [renderContours_eq_writeAll]
    exact writeAll_untouched w h (contourPixels cs) buf px py c hpx hpy hc hnp
  · intro hmem
    rw [renderContours_eq_writeAll]
    exact writeAll_cyan w h (contourPixels cs) buf px py hpx hpy hmem
  · intro x y R G B hoob
    rw [setPixelColourSafe, if_pos hoob]

theorem renderer_effect_witness :
    (∀ c < 4, renderContours (fun _ => 7) 4 4 [[(1, 1), (2, 1)]]
        ((0 * 4 + 0) * 4 + c) = (fun _ : Nat => 7) ((0 * 4 + 0) * 4 + c)) ∧
    cyanAt (renderContours (fun _ => 7) 4 4 [[(1, 1), (2, 1)]]) 4 1 1 ∧
    setPixelColourSafe (fun _ => 7) 4 4 (-1) 0 9 9 9 = (fun _ => 7) := by
  have h0 := renderer_effect (fun _ => 7) 4 4 [[(1, 1), (2, 1)]] 0 0
    (by omega) (by omega)
  have h1 := renderer_effect (fun _ => 7) 4 4 [[(1, 1), (2, 1)]] 1 1
    (by omega) (by omega)
  exact ⟨h0.1 (by decide), h1.2.1 (by decide), h0.2.2 (-1) 0 9 9 9 (by omega)⟩

end CHLocator
